import Mathlib

/-!
A verification development for OGDF's `PoolMemoryAllocator`
(`src/ogdf/basic/PoolMemoryAllocator.cpp`), modelling the debug,
multi-threaded build (`OGDF_DEBUG` defined, `OGDF_MEMORY_POOL_NTS` not
defined), from the point of view of one calling thread.

Memory is word-addressed: an address is a `Nat` counting pointer words
from the start of the address space.  An intrusive free list (a head
pointer plus the `m_next` chain stored in the free elements themselves)
is represented by the `List` of element addresses, head first; walking
`m_next` from the head corresponds to walking the list.  `makeSlices`,
whose claim is about the individual link writes, is additionally
modelled directly on a link heap `Nat → Option Nat`.
-/

namespace PoolAlloc

/-- `OGDF_SIZEOF_POINTER`: the pointer word size in bytes (64-bit build). -/
def ptrSize : Nat := 8

/-- Modelled from the spec: `eBlockSize` from `memory.h` is not in `src/`;
the block byte capacity is a policy constant (OGDF uses 8192). -/
def eBlockSize : Nat := 8192

/-- Modelled from the spec: `eTableSize` from `memory.h` is not in `src/`;
the size-class ceiling `MaxSize` is a policy constant (OGDF uses 256). -/
def eTableSize : Nat := 256

/-- Modelled from the spec: `eMinBytes` from `memory.h` is not in `src/`;
it is `sizeof(MemElemPtr)`, one pointer word. -/
def eMinBytes : Nat := ptrSize

/-- Number of pointer words in one raw block. -/
def blockWords : Nat := eBlockSize / ptrSize

/-- A word address. -/
abbrev Addr := Nat

/-- `PoolMemoryAllocator::PoolElement`: one global size-class entry, the
head of its free list (as the list of addresses) and the element count
(`int m_size` in C, modelled as an unbounded `Int`). -/
structure PoolElement where
  m_gp : List Addr
  m_size : Int
deriving Repr, DecidableEq

/-- The allocator's static state, seen from one thread:
`s_pool` is the global size-class table, `s_tp` the thread-local table,
`s_blocks` the block chain (base addresses, newest first), and
`s_nettoAlloc` the debug counter of words carved from blocks. -/
structure AllocState where
  s_pool : Nat → PoolElement
  s_tp : Nat → List Addr
  s_blocks : List Addr
  s_nettoAlloc : Nat

/-- The state at program start: all statics zero-initialized. -/
def initState : AllocState :=
  { s_pool := fun _ => ⟨[], 0⟩, s_tp := fun _ => [], s_blocks := [], s_nettoAlloc := 0 }

/-- The loop index list `for (sz = 1; sz < eTableSize; ++sz)` used by
`flushPool`, `defrag` and the memory introspection functions. -/
def classRange : List Nat := List.range' 1 (eTableSize - 1)

/-- Modelled from the spec: `slicesPerBlock` from `memory.h` is not in
`src/`.  It rounds the element size up to whole pointer words (`nWords`)
and divides the block's fixed byte capacity (`eBlockSize` minus the
trailing chain pointer of `BlockChain`) by the aligned element size,
floored.  Returns `(nSlices, nWords)`. -/
def slicesPerBlock (nBytes : Nat) : Nat × Nat :=
  let nWords := (nBytes + ptrSize - 1) / ptrSize
  ((eBlockSize - ptrSize) / (nWords * ptrSize), nWords)

/-- The addresses of the `nSlices` slices that `makeSlices` links up in a
block starting at `pBlock`: slice `i` starts `i * nWords` words in. -/
def sliceList (pBlock nWords : Nat) : Nat → List Addr
  | 0 => []
  | n + 1 => pBlock :: sliceList (pBlock + nWords) nWords n

/-- `int nSlices = slicesPerBlock(max(nBytes, eMinBytes), nWords)` in
`fillPool`: the slice count for the rounded-up size. -/
def nSlicesFor (s : Nat) : Nat := (slicesPerBlock (max s eMinBytes)).1

/-- The per-slice word count computed alongside `nSlicesFor`. -/
def nWordsFor (s : Nat) : Nat := (slicesPerBlock (max s eMinBytes)).2

/-- The address `malloc` returns for the next raw block, modelled as the
next disjoint block-sized region of the word-addressed space. -/
def freshBlock (st : AllocState) : Addr := blockWords * st.s_blocks.length

/-- `PoolMemoryAllocator::allocateBlock`: `malloc` one raw block and push
it onto the block chain `s_blocks`. -/
def allocateBlock (st : AllocState) : Addr × AllocState :=
  (freshBlock st, { st with s_blocks := freshBlock st :: st.s_blocks })

/-- The trailing lines of `fillPool`: `p = pFreeBytes; pFreeBytes = p->m_next;
return p;` — pop one element off the (freshly refilled) local list.  The
`[]` case is unreachable in C (the refill leaves at least one element);
dereferencing there would be undefined behavior, modelled by a junk pair. -/
def popLocal (st : AllocState) (nBytes : Nat) : Addr × AllocState :=
  match st.s_tp nBytes with
  | [] => (0, st)
  | p :: rest => (p, { st with s_tp := Function.update st.s_tp nBytes rest })

/-- `PoolMemoryAllocator::fillPool` (threaded branch): compute the slice
count for the rounded-up size; if the global pool's count for this class
is at least `nSlices`, detach the first `nSlices` elements of the global
list (the C walk over `nSlices - 1` links, cutting the chain there, is
`take`/`drop` whenever the list really has that many elements, which the
size/length invariant guarantees) and make them the local list; otherwise
register a new block, count the carved words, and slice it into the local
list.  Finally pop one element. -/
def fillPool (st : AllocState) (nBytes : Nat) : Addr × AllocState :=
  if (nSlicesFor nBytes : Int) ≤ (st.s_pool nBytes).m_size then
    popLocal
      { st with
        s_pool := Function.update st.s_pool nBytes
          ⟨(st.s_pool nBytes).m_gp.drop (nSlicesFor nBytes),
           (st.s_pool nBytes).m_size - nSlicesFor nBytes⟩,
        s_tp := Function.update st.s_tp nBytes
          ((st.s_pool nBytes).m_gp.take (nSlicesFor nBytes)) }
      nBytes
  else
    popLocal
      { (allocateBlock st).2 with
        s_nettoAlloc := (allocateBlock st).2.s_nettoAlloc + nWordsFor nBytes * nSlicesFor nBytes,
        s_tp := Function.update (allocateBlock st).2.s_tp nBytes
          (sliceList (allocateBlock st).1 (nWordsFor nBytes) (nSlicesFor nBytes)) }
      nBytes

/-- `PoolMemoryAllocator::allocate`: pop the head of the thread-local
free list for `nBytes`, or refill via `fillPool` when it is empty. -/
def allocate (st : AllocState) (nBytes : Nat) : Addr × AllocState :=
  match st.s_tp nBytes with
  | p :: rest => (p, { st with s_tp := Function.update st.s_tp nBytes rest })
  | [] => fillPool st nBytes

/-- `PoolMemoryAllocator::deallocate`: push `p` onto the head of the
thread-local free list for `nBytes`. -/
def deallocate (st : AllocState) (nBytes : Nat) (p : Addr) : AllocState :=
  { st with s_tp := Function.update st.s_tp nBytes (p :: st.s_tp nBytes) }

/-- `PoolMemoryAllocator::deallocateList`: splice an already-linked chain
(given by its list of addresses, head first; the C interface passes the
head and tail pointers of that chain) onto the thread-local free list:
`pTail->m_next = pFreeBytes; pFreeBytes = pHead;`. -/
def deallocateList (st : AllocState) (nBytes : Nat) (chain : List Addr) : AllocState :=
  { st with s_tp := Function.update st.s_tp nBytes (chain ++ st.s_tp nBytes) }

/-- One iteration of the `flushPool` loop body, for size class `nBytes`:
if the local list is non-empty, walk it to find the tail and count `n`,
clear the local head, and splice the chain onto the front of the global
list, adding `n` to the global count. -/
def flushClass (st : AllocState) (nBytes : Nat) : AllocState :=
  if st.s_tp nBytes = [] then st
  else
    { st with
      s_tp := Function.update st.s_tp nBytes [],
      s_pool := Function.update st.s_pool nBytes
        ⟨st.s_tp nBytes ++ (st.s_pool nBytes).m_gp,
         (st.s_pool nBytes).m_size + (st.s_tp nBytes).length⟩ }

/-- `PoolMemoryAllocator::flushPool`: donate every non-empty thread-local
free list to the global pool, one size class at a time. -/
def flushPool (st : AllocState) : AllocState :=
  classRange.foldl flushClass st

/-- `std::sort` over the collected element addresses: ascending order. -/
def sortAddrs (l : List Addr) : List Addr :=
  List.insertionSort (· ≤ ·) l

/-- One size class of `defrag`'s inner loop: when the stored count
exceeds 1, collect the list into a buffer, sort it by address and relink
in that order (the count is untouched). -/
def defragClass (st : AllocState) (sz : Nat) : AllocState :=
  if 1 < (st.s_pool sz).m_size then
    { st with
      s_pool := Function.update st.s_pool sz
        ⟨sortAddrs (st.s_pool sz).m_gp, (st.s_pool sz).m_size⟩ }
  else st

/-- `defrag`'s first loop: the largest per-class stored count, used to
size the shared temporary buffer. -/
def defragMaxSize (st : AllocState) : Int :=
  classRange.foldl (fun acc sz => max acc (st.s_pool sz).m_size) 0

/-- `PoolMemoryAllocator::defrag`: under the lock, when any class holds
more than one element, sort and relink each such class's global free
list in ascending address order. -/
def defrag (st : AllocState) : AllocState :=
  if 1 < defragMaxSize st then classRange.foldl defragClass st else st

/-- The `OGDF_ASSERT(i == n)` inside `defrag`: for every class the inner
loop visits, the walk from the head must meet exactly `m_size` elements. -/
def defragAssertOk (st : AllocState) : Prop :=
  ∀ sz, 1 < (st.s_pool sz).m_size →
    ((st.s_pool sz).m_gp.length : Int) = (st.s_pool sz).m_size

/-- `PoolMemoryAllocator::unguardedMemGlobalFreelist`: sum of
`pe.m_size * sz` over all size classes.  The C code accumulates into a
`size_t`; the model uses `Int`, which agrees whenever the counts are
non-negative (true in every reachable state). -/
def unguardedMemGlobalFreelist (st : AllocState) : Int :=
  (classRange.map (fun sz => (st.s_pool sz).m_size * sz)).sum

/-- One size class of `memoryInThreadFreeList`.  The C code binds
`MemElemPtr &p = s_tp[sz];` — a *reference* to the head — and then runs
`for (; p != nullptr; p = p->m_next) bytesFree += sz;`, so it adds
`sz` per element but also drags the stored head down the chain until it
is null: the class's bytes are counted and its local head is wiped. -/
def memThreadStep (acc : Nat × AllocState) (sz : Nat) : Nat × AllocState :=
  (acc.1 + (acc.2.s_tp sz).length * sz,
   { acc.2 with s_tp := Function.update acc.2.s_tp sz [] })

/-- `PoolMemoryAllocator::memoryInThreadFreeList`: returns the byte total
of the calling thread's free lists and (through the reference bug noted
in `memThreadStep`) leaves every local head null. -/
def memoryInThreadFreeList (st : AllocState) : Nat × AllocState :=
  classRange.foldl memThreadStep (0, st)

/-- The value `memoryInThreadFreeList` returns, as a pure sum. -/
def memThreadBytes (st : AllocState) : Nat :=
  (classRange.map (fun sz => (st.s_tp sz).length * sz)).sum

/-- The `OGDF_ASSERT` in `cleanup`: global free-list bytes plus the value
returned by `memoryInThreadFreeList` must equal the carved words times
the pointer size. -/
def cleanupAssert (st : AllocState) : Prop :=
  unguardedMemGlobalFreelist st + ((memoryInThreadFreeList st).1 : Int)
    = (st.s_nettoAlloc : Int) * ptrSize

/-- `PoolMemoryAllocator::cleanup` (debug build): run the two accounting
queries (the thread-list one mutates the local table, see
`memThreadStep`), then walk the block chain and `free` every block.  The
returned list is the chain of blocks released, in traversal order; the
anchor `s_blocks` itself is never reassigned. -/
def cleanup (st : AllocState) : List Addr × AllocState :=
  let st1 := (memoryInThreadFreeList st).2
  (st1.s_blocks, st1)

/-- The link heap for the direct model of `makeSlices`: each address maps
to the `m_next` value stored there (`none` = null pointer). -/
abbrev Heap := Nat → Option Nat

/-- The `do { pBlock = pBlock->m_next = pBlock + nWords; } while (--nSlices > 1);`
loop of `makeSlices`: returns the heap after the link writes and the
final value of the cursor. -/
def makeSlicesLoop : Heap → Nat → Nat → Nat → Heap × Nat
  | h, p, nWords, nSlices =>
    if 1 < nSlices - 1 then
      makeSlicesLoop (Function.update h p (some (p + nWords))) (p + nWords) nWords (nSlices - 1)
    else
      (Function.update h p (some (p + nWords)), p + nWords)
termination_by _ _ _ nSlices => nSlices
decreasing_by simp_wf; omega

/-- `PoolMemoryAllocator::makeSlices`: run the linking loop, then null
the link of the element the cursor ends on. -/
def makeSlices (h : Heap) (pBlock nWords nSlices : Nat) : Heap :=
  let pr := makeSlicesLoop h pBlock nWords nSlices
  Function.update pr.1 pr.2 none

/-- One boundary call into the allocator, for trace-level claims. -/
inductive Op where
  | alloc : Nat → Op
  | dealloc : Nat → Addr → Op
  | deallocList : Nat → List Addr → Op
deriving Repr, DecidableEq

/-- Run one call (the allocation's returned address is dropped). -/
def runOp (st : AllocState) : Op → AllocState
  | Op.alloc s => (allocate st s).2
  | Op.dealloc s p => deallocate st s p
  | Op.deallocList s chain => deallocateList st s chain

/-- Run a sequence of calls. -/
def runOps (st : AllocState) (t : List Op) : AllocState :=
  t.foldl runOp st

/-- `n` consecutive `allocate` calls of the same size, collecting the
returned addresses in call order. -/
def allocN (s : Nat) : Nat → AllocState → List Addr × AllocState
  | 0, st => ([], st)
  | n + 1, st =>
    ((allocate st s).1 :: (allocN s n (allocate st s).2).1,
     (allocN s n (allocate st s).2).2)

/-- The size argument of a call. -/
def opSize : Op → Nat
  | Op.alloc s => s
  | Op.dealloc s _ => s
  | Op.deallocList s _ => s

/-- The caller contract `0 < size < eTableSize`. -/
def validOp (o : Op) : Prop :=
  0 < opSize o ∧ opSize o < eTableSize

/-- Net change, in bytes, of the memory held by the caller after a call:
an allocation takes `s` bytes out of the free lists, a deallocation puts
`s` bytes (per chain element) back. -/
def opDelta : Op → Int
  | Op.alloc s => (s : Int)
  | Op.dealloc s _ => -(s : Int)
  | Op.deallocList s chain => -((s : Int) * chain.length)

/-- Total caller-held bytes after a trace ("every allocation matched by a
deallocation" makes this zero). -/
def netDelta (t : List Op) : Int :=
  (t.map opDelta).sum

/-- The global-table invariant: each class's stored count equals the
number of elements in its free list. -/
def GlobalSizeInv (st : AllocState) : Prop :=
  ∀ s, (st.s_pool s).m_size = ((st.s_pool s).m_gp.length : Int)

/-- The byte-accounting invariant with `d` bytes currently held by the
caller. -/
def Accounting (st : AllocState) (d : Int) : Prop :=
  unguardedMemGlobalFreelist st + (memThreadBytes st : Int) + d
    = (st.s_nettoAlloc : Int) * ptrSize

instance (st : AllocState) : Decidable (cleanupAssert st) := by
  unfold cleanupAssert; infer_instance

instance (o : Op) : Decidable (validOp o) := by
  unfold validOp; infer_instance

/-! ### Basic facts about the class range, sums and slice lists -/

lemma mem_classRange {s : Nat} : s ∈ classRange ↔ 1 ≤ s ∧ s < eTableSize := by
  simp [classRange, List.mem_range'_1, eTableSize]

lemma classRange_nodup : classRange.Nodup := List.nodup_range' _ _

lemma sliceList_length : ∀ (n pBlock nWords : Nat), (sliceList pBlock nWords n).length = n
  | 0, _, _ => rfl
  | n + 1, p, w => by simp [sliceList, sliceList_length n]

lemma sum_map_congr {M : Type} [AddCommMonoid M] {F G : Nat → M} :
    ∀ {L : List Nat}, (∀ sz ∈ L, G sz = F sz) → (L.map G).sum = (L.map F).sum := by
  intro L h
  rw [List.map_congr_left h]

/-- Changing the summand at one member of a duplicate-free index list
changes the sum by exactly the change at that index (`Nat` version,
stated additively). -/
lemma sum_map_update_nat (F G : Nat → Nat) (s : Nat)
    (h : ∀ sz, sz ≠ s → G sz = F sz) :
    ∀ L : List Nat, L.Nodup → s ∈ L →
      G s + (L.map F).sum = F s + (L.map G).sum
  | [], _, hm => absurd hm (List.not_mem_nil s)
  | a :: L, hnd, hm => by
    rcases List.mem_cons.mp hm with rfl | hmem
    · have hnotin : s ∉ L := (List.nodup_cons.mp hnd).1
      have hsum : (L.map G).sum = (L.map F).sum :=
        sum_map_congr (fun sz hsz => h sz (fun e => hnotin (e ▸ hsz)))
      simp only [List.map_cons, List.sum_cons, hsum]
      omega
    · have hne : a ≠ s := fun e => (List.nodup_cons.mp hnd).1 (e ▸ hmem)
      have ih := sum_map_update_nat F G s h L (List.nodup_cons.mp hnd).2 hmem
      simp only [List.map_cons, List.sum_cons, h a hne]
      omega

/-- `Int` version of `sum_map_update_nat`. -/
lemma sum_map_update_int (F G : Nat → Int) (s : Nat)
    (h : ∀ sz, sz ≠ s → G sz = F sz) :
    ∀ L : List Nat, L.Nodup → s ∈ L →
      G s + (L.map F).sum = F s + (L.map G).sum
  | [], _, hm => absurd hm (List.not_mem_nil s)
  | a :: L, hnd, hm => by
    rcases List.mem_cons.mp hm with rfl | hmem
    · have hnotin : s ∉ L := (List.nodup_cons.mp hnd).1
      have hsum : (L.map G).sum = (L.map F).sum :=
        sum_map_congr (fun sz hsz => h sz (fun e => hnotin (e ▸ hsz)))
      simp only [List.map_cons, List.sum_cons, hsum]
      omega
    · have hne : a ≠ s := fun e => (List.nodup_cons.mp hnd).1 (e ▸ hmem)
      have ih := sum_map_update_int F G s h L (List.nodup_cons.mp hnd).2 hmem
      simp only [List.map_cons, List.sum_cons, h a hne]
      omega

set_option maxRecDepth 8000 in
/-- Arithmetic facts about `slicesPerBlock` on the valid size range:
at least two slices fit in a block, the word count is positive, and for
word-multiple sizes the aligned size is the size itself. -/
lemma slicesPerBlock_facts :
    ∀ s, s < eTableSize → 0 < s →
      2 ≤ (slicesPerBlock (max s eMinBytes)).1
      ∧ 1 ≤ (slicesPerBlock (max s eMinBytes)).2
      ∧ (ptrSize ∣ s → (slicesPerBlock (max s eMinBytes)).2 * ptrSize = s) := by
  decide

lemma nSlicesFor_ge_two {s : Nat} (h1 : s < eTableSize) (h2 : 0 < s) :
    2 ≤ nSlicesFor s :=
  (slicesPerBlock_facts s h1 h2).1

lemma nSlicesFor_pos {s : Nat} (h1 : s < eTableSize) (h2 : 0 < s) :
    0 < nSlicesFor s :=
  lt_of_lt_of_le (by omega) (nSlicesFor_ge_two h1 h2)

lemma nWordsFor_pos {s : Nat} (h1 : s < eTableSize) (h2 : 0 < s) :
    1 ≤ nWordsFor s :=
  (slicesPerBlock_facts s h1 h2).2.1

lemma nWordsFor_mul_ptrSize {s : Nat} (h1 : s < eTableSize) (h2 : 0 < s)
    (hdvd : ptrSize ∣ s) : nWordsFor s * ptrSize = s :=
  (slicesPerBlock_facts s h1 h2).2.2 hdvd

/-! ### Characterizing the operations -/

lemma popLocal_cons {st : AllocState} {s : Nat} (p : Addr) (rest : List Addr)
    (h : st.s_tp s = p :: rest) :
    popLocal st s = (p, { st with s_tp := Function.update st.s_tp s rest }) := by
  unfold popLocal
  rw [h]

/-- The global-take branch of `fillPool`: it detaches the first
`nSlicesFor s` elements of the global list, makes them the local list,
and pops the first of them. -/
lemma fillPool_take_char (st : AllocState) (s : Nat)
    (hc : (nSlicesFor s : Int) ≤ (st.s_pool s).m_size)
    (hlen : nSlicesFor s ≤ (st.s_pool s).m_gp.length)
    (hpos : 0 < nSlicesFor s) :
    fillPool st s =
      ((st.s_pool s).m_gp.headI,
        { st with
          s_pool := Function.update st.s_pool s
            ⟨(st.s_pool s).m_gp.drop (nSlicesFor s),
             (st.s_pool s).m_size - nSlicesFor s⟩,
          s_tp := Function.update st.s_tp s
            (((st.s_pool s).m_gp.take (nSlicesFor s)).tail) }) := by
  obtain ⟨a, g', hgp⟩ : ∃ a g', (st.s_pool s).m_gp = a :: g' := by
    cases hgp : (st.s_pool s).m_gp with
    | nil => rw [hgp] at hlen; simp at hlen; omega
    | cons a g' => exact ⟨a, g', rfl⟩
  obtain ⟨m, hm⟩ : ∃ m, nSlicesFor s = m + 1 := ⟨nSlicesFor s - 1, by omega⟩
  unfold fillPool
  rw [if_pos hc]
  rw [popLocal_cons a (((a :: g').take (nSlicesFor s)).tail)
      (by simp [hgp, hm, Function.update_same])]
  simp [hgp, hm, Function.update_idem]

/-- The new-block branch of `fillPool`: it registers one fresh block on
the chain, counts the carved words, slices the block into the local
list, and pops the first slice (the block's base address). -/
lemma fillPool_block_char (st : AllocState) (s : Nat)
    (hc : ¬ (nSlicesFor s : Int) ≤ (st.s_pool s).m_size)
    (hpos : 0 < nSlicesFor s) :
    fillPool st s =
      (freshBlock st,
        { st with
          s_blocks := freshBlock st :: st.s_blocks,
          s_nettoAlloc := st.s_nettoAlloc + nWordsFor s * nSlicesFor s,
          s_tp := Function.update st.s_tp s
            ((sliceList (freshBlock st) (nWordsFor s) (nSlicesFor s)).tail) }) := by
  obtain ⟨m, hm⟩ : ∃ m, nSlicesFor s = m + 1 := ⟨nSlicesFor s - 1, by omega⟩
  unfold fillPool
  rw [if_neg hc]
  rw [popLocal_cons (freshBlock st)
      ((sliceList (freshBlock st) (nWordsFor s) (nSlicesFor s)).tail)
      (by simp [allocateBlock, hm, sliceList, Function.update_same])]
  simp [allocateBlock, Function.update_idem]

/-- Both branches of `flushClass` are the same record update: when the
local list is empty the splice adds nothing and the updates are
identities. -/
lemma flushClass_eq (st : AllocState) (a : Nat) :
    flushClass st a =
      { st with
        s_tp := Function.update st.s_tp a [],
        s_pool := Function.update st.s_pool a
          ⟨st.s_tp a ++ (st.s_pool a).m_gp,
           (st.s_pool a).m_size + (st.s_tp a).length⟩ } := by
  unfold flushClass
  split
  · rename_i h
    have h1 : Function.update st.s_tp a [] = st.s_tp := by
      rw [← h]
      exact Function.update_eq_self a st.s_tp
    have h2 : Function.update st.s_pool a
        ⟨st.s_tp a ++ (st.s_pool a).m_gp,
         (st.s_pool a).m_size + (st.s_tp a).length⟩ = st.s_pool := by
      rw [h]
      simp
    rw [h1, h2]
  · rfl

lemma foldl_flush_tp : ∀ (L : List Nat) (st : AllocState) (s : Nat),
    (L.foldl flushClass st).s_tp s = if s ∈ L then [] else st.s_tp s
  | [], st, s => by simp
  | a :: L, st, s => by
    simp only [List.foldl_cons]
    rw [foldl_flush_tp L]
    by_cases h1 : s ∈ L
    · simp [h1]
    · by_cases h2 : s = a
      · subst h2
        simp [h1, flushClass_eq, Function.update_same]
      · simp [h1, h2, flushClass_eq, Function.update_noteq h2]

lemma foldl_flush_pool : ∀ (L : List Nat), L.Nodup → ∀ (st : AllocState) (s : Nat),
    (L.foldl flushClass st).s_pool s =
      if s ∈ L then
        ⟨st.s_tp s ++ (st.s_pool s).m_gp,
         (st.s_pool s).m_size + (st.s_tp s).length⟩
      else st.s_pool s
  | [], _, st, s => by simp
  | a :: L, hnd, st, s => by
    obtain ⟨ha, hnd'⟩ := List.nodup_cons.mp hnd
    simp only [List.foldl_cons]
    rw [foldl_flush_pool L hnd']
    by_cases h1 : s ∈ L
    · have hne : s ≠ a := fun e => ha (e ▸ h1)
      simp [h1, flushClass_eq, Function.update_noteq hne]
    · by_cases h2 : s = a
      · subst h2
        simp [h1, flushClass_eq, Function.update_same]
      · simp [h1, h2, flushClass_eq, Function.update_noteq h2]

lemma foldl_flush_blocks : ∀ (L : List Nat) (st : AllocState),
    (L.foldl flushClass st).s_blocks = st.s_blocks
  | [], _ => rfl
  | a :: L, st => by
    simp only [List.foldl_cons]
    rw [foldl_flush_blocks L, flushClass_eq]

lemma foldl_flush_netto : ∀ (L : List Nat) (st : AllocState),
    (L.foldl flushClass st).s_nettoAlloc = st.s_nettoAlloc
  | [], _ => rfl
  | a :: L, st => by
    simp only [List.foldl_cons]
    rw [foldl_flush_netto L, flushClass_eq]

lemma defragClass_pool (st : AllocState) (a s : Nat) :
    (defragClass st a).s_pool s =
      if s = a ∧ 1 < (st.s_pool a).m_size then
        ⟨sortAddrs (st.s_pool a).m_gp, (st.s_pool a).m_size⟩
      else st.s_pool s := by
  unfold defragClass
  by_cases hsz : 1 < (st.s_pool a).m_size
  · rw [if_pos hsz]
    by_cases h2 : s = a
    · subst h2
      simp [hsz, Function.update_same]
    · simp only [if_neg (fun hand : s = a ∧ _ => h2 hand.1)]
      exact Function.update_noteq h2 _ _
  · rw [if_neg hsz, if_neg (fun hand : s = a ∧ _ => hsz hand.2)]

lemma defragClass_tp (st : AllocState) (a : Nat) :
    (defragClass st a).s_tp = st.s_tp := by
  unfold defragClass
  split <;> rfl

lemma defragClass_blocks (st : AllocState) (a : Nat) :
    (defragClass st a).s_blocks = st.s_blocks := by
  unfold defragClass
  split <;> rfl

lemma defragClass_netto (st : AllocState) (a : Nat) :
    (defragClass st a).s_nettoAlloc = st.s_nettoAlloc := by
  unfold defragClass
  split <;> rfl

lemma foldl_defrag_pool : ∀ (L : List Nat), L.Nodup → ∀ (st : AllocState) (s : Nat),
    (L.foldl defragClass st).s_pool s =
      if s ∈ L ∧ 1 < (st.s_pool s).m_size then
        ⟨sortAddrs (st.s_pool s).m_gp, (st.s_pool s).m_size⟩
      else st.s_pool s
  | [], _, st, s => by simp
  | a :: L, hnd, st, s => by
    obtain ⟨ha, hnd'⟩ := List.nodup_cons.mp hnd
    simp only [List.foldl_cons]
    rw [foldl_defrag_pool L hnd']
    by_cases h2 : s = a
    · subst h2
      rw [if_neg (show ¬(s ∈ L ∧
          1 < ((defragClass st s).s_pool s).m_size) from fun hand => ha hand.1)]
      rw [defragClass_pool]
      simp
    · rw [defragClass_pool,
        if_neg (show ¬(s = a ∧ 1 < (st.s_pool a).m_size) from fun hand => h2 hand.1)]
      simp [List.mem_cons, h2]

lemma foldl_defrag_tp : ∀ (L : List Nat) (st : AllocState),
    (L.foldl defragClass st).s_tp = st.s_tp
  | [], _ => rfl
  | a :: L, st => by
    simp only [List.foldl_cons]
    rw [foldl_defrag_tp L, defragClass_tp]

lemma foldl_defrag_blocks : ∀ (L : List Nat) (st : AllocState),
    (L.foldl defragClass st).s_blocks = st.s_blocks
  | [], _ => rfl
  | a :: L, st => by
    simp only [List.foldl_cons]
    rw [foldl_defrag_blocks L, defragClass_blocks]

lemma foldl_defrag_netto : ∀ (L : List Nat) (st : AllocState),
    (L.foldl defragClass st).s_nettoAlloc = st.s_nettoAlloc
  | [], _ => rfl
  | a :: L, st => by
    simp only [List.foldl_cons]
    rw [foldl_defrag_netto L, defragClass_netto]

lemma foldl_max_init_le (F : Nat → Int) :
    ∀ (L : List Nat) (acc : Int), acc ≤ L.foldl (fun a x => max a (F x)) acc
  | [], acc => le_refl acc
  | a :: L, acc => by
    simp only [List.foldl_cons]
    exact le_trans (le_max_left acc (F a)) (foldl_max_init_le F L _)

lemma mem_le_foldl_max (F : Nat → Int) :
    ∀ (L : List Nat) (acc : Int) (s : Nat), s ∈ L →
      F s ≤ L.foldl (fun a x => max a (F x)) acc
  | [], _, s, hm => absurd hm (List.not_mem_nil s)
  | a :: L, acc, s, hm => by
    simp only [List.foldl_cons]
    rcases List.mem_cons.mp hm with rfl | hmem
    · exact le_trans (le_max_right acc (F s)) (foldl_max_init_le F L _)
    · exact mem_le_foldl_max F L _ s hmem

lemma defragMaxSize_ge {st : AllocState} {s : Nat} (h : s ∈ classRange) :
    (st.s_pool s).m_size ≤ defragMaxSize st :=
  mem_le_foldl_max _ classRange 0 s h

/-- Pointwise effect of `defrag` on the global table: a class is sorted
and relinked exactly when it is in the loop range and its stored count
exceeds one. -/
lemma defrag_pool (st : AllocState) (s : Nat) :
    (defrag st).s_pool s =
      if s ∈ classRange ∧ 1 < (st.s_pool s).m_size then
        ⟨sortAddrs (st.s_pool s).m_gp, (st.s_pool s).m_size⟩
      else st.s_pool s := by
  unfold defrag
  split
  · exact foldl_defrag_pool classRange classRange_nodup st s
  · rename_i h
    rw [if_neg]
    rintro ⟨hmem, hsz⟩
    exact h (lt_of_lt_of_le hsz (defragMaxSize_ge hmem))

lemma defrag_tp (st : AllocState) : (defrag st).s_tp = st.s_tp := by
  unfold defrag
  split
  · exact foldl_defrag_tp classRange st
  · rfl

lemma defrag_blocks (st : AllocState) : (defrag st).s_blocks = st.s_blocks := by
  unfold defrag
  split
  · exact foldl_defrag_blocks classRange st
  · rfl

lemma defrag_netto (st : AllocState) : (defrag st).s_nettoAlloc = st.s_nettoAlloc := by
  unfold defrag
  split
  · exact foldl_defrag_netto classRange st
  · rfl

lemma memThread_fold_fst : ∀ (L : List Nat), L.Nodup → ∀ (acc : Nat) (st : AllocState),
    (L.foldl memThreadStep (acc, st)).1
      = acc + (L.map (fun sz => (st.s_tp sz).length * sz)).sum
  | [], _, acc, st => by simp
  | a :: L, hnd, acc, st => by
    obtain ⟨ha, hnd'⟩ := List.nodup_cons.mp hnd
    simp only [List.foldl_cons]
    have hstep : memThreadStep (acc, st) a
        = (acc + (st.s_tp a).length * a,
           { st with s_tp := Function.update st.s_tp a [] }) := rfl
    rw [hstep, memThread_fold_fst L hnd']
    have hcg : ∀ sz ∈ L,
        ((Function.update st.s_tp a []) sz).length * sz
          = (st.s_tp sz).length * sz := by
      intro sz hsz
      have : sz ≠ a := fun e => ha (e ▸ hsz)
      rw [Function.update_noteq this]
    rw [sum_map_congr hcg]
    simp [List.map_cons, List.sum_cons]
    omega

lemma memThread_fold_tp : ∀ (L : List Nat) (acc : Nat) (st : AllocState) (s : Nat),
    (L.foldl memThreadStep (acc, st)).2.s_tp s = if s ∈ L then [] else st.s_tp s
  | [], acc, st, s => by simp
  | a :: L, acc, st, s => by
    simp only [List.foldl_cons]
    have hstep : memThreadStep (acc, st) a
        = (acc + (st.s_tp a).length * a,
           { st with s_tp := Function.update st.s_tp a [] }) := rfl
    rw [hstep, memThread_fold_tp L]
    by_cases h1 : s ∈ L
    · simp [h1]
    · by_cases h2 : s = a
      · subst h2
        simp [h1, Function.update_same]
      · simp [h1, h2, Function.update_noteq h2]

lemma memThread_fold_pool : ∀ (L : List Nat) (acc : Nat) (st : AllocState),
    (L.foldl memThreadStep (acc, st)).2.s_pool = st.s_pool
  | [], acc, st => rfl
  | a :: L, acc, st => by
    simp only [List.foldl_cons]
    exact memThread_fold_pool L _ _

lemma memThread_fold_blocks : ∀ (L : List Nat) (acc : Nat) (st : AllocState),
    (L.foldl memThreadStep (acc, st)).2.s_blocks = st.s_blocks
  | [], acc, st => rfl
  | a :: L, acc, st => by
    simp only [List.foldl_cons]
    exact memThread_fold_blocks L _ _

lemma memThread_fold_netto : ∀ (L : List Nat) (acc : Nat) (st : AllocState),
    (L.foldl memThreadStep (acc, st)).2.s_nettoAlloc = st.s_nettoAlloc
  | [], acc, st => rfl
  | a :: L, acc, st => by
    simp only [List.foldl_cons]
    exact memThread_fold_netto L _ _

/-- The value `memoryInThreadFreeList` returns is the byte sum of the
thread's free lists. -/
lemma memoryInThreadFreeList_fst (st : AllocState) :
    (memoryInThreadFreeList st).1 = memThreadBytes st := by
  unfold memoryInThreadFreeList memThreadBytes
  rw [memThread_fold_fst classRange classRange_nodup]
  simp

lemma allocate_cons {st : AllocState} {s : Nat} {p : Addr} {rest : List Addr}
    (h : st.s_tp s = p :: rest) :
    allocate st s = (p, { st with s_tp := Function.update st.s_tp s rest }) := by
  unfold allocate
  rw [h]

lemma allocate_nil {st : AllocState} {s : Nat} (h : st.s_tp s = []) :
    allocate st s = fillPool st s := by
  unfold allocate
  rw [h]

lemma sortAddrs_perm (l : List Addr) : List.Perm (sortAddrs l) l :=
  List.perm_insertionSort _ l

lemma sortAddrs_length (l : List Addr) : (sortAddrs l).length = l.length :=
  (sortAddrs_perm l).length_eq

lemma sortAddrs_sorted (l : List Addr) : (sortAddrs l).Sorted (· ≤ ·) :=
  List.sorted_insertionSort _ l

/-! ### Preservation of the global size/length invariant -/

lemma globalSizeInv_init : GlobalSizeInv initState := fun _ => rfl

lemma globalSizeInv_deallocate {st : AllocState} (h : GlobalSizeInv st)
    (s : Nat) (p : Addr) : GlobalSizeInv (deallocate st s p) := h

lemma globalSizeInv_deallocateList {st : AllocState} (h : GlobalSizeInv st)
    (s : Nat) (chain : List Addr) : GlobalSizeInv (deallocateList st s chain) := h

lemma globalSizeInv_fillPool {st : AllocState} {s : Nat} (hinv : GlobalSizeInv st)
    (h1 : s < eTableSize) (h2 : 0 < s) : GlobalSizeInv (fillPool st s).2 := by
  by_cases hc : (nSlicesFor s : Int) ≤ (st.s_pool s).m_size
  · have hlen : nSlicesFor s ≤ (st.s_pool s).m_gp.length := by
      have := hinv s
      omega
    rw [fillPool_take_char st s hc hlen (nSlicesFor_pos h1 h2)]
    intro s'
    by_cases hs' : s' = s
    · subst hs'
      simp only [Function.update_same]
      have := hinv s'
      simp only [List.length_drop]
      omega
    · simp only [Function.update_noteq hs']
      exact hinv s'
  · rw [fillPool_block_char st s hc (nSlicesFor_pos h1 h2)]
    exact hinv

lemma globalSizeInv_allocate {st : AllocState} {s : Nat} (hinv : GlobalSizeInv st)
    (h1 : s < eTableSize) (h2 : 0 < s) : GlobalSizeInv (allocate st s).2 := by
  cases htp : st.s_tp s with
  | nil =>
    rw [allocate_nil htp]
    exact globalSizeInv_fillPool hinv h1 h2
  | cons p rest =>
    rw [allocate_cons htp]
    exact hinv

lemma globalSizeInv_flushPool {st : AllocState} (hinv : GlobalSizeInv st) :
    GlobalSizeInv (flushPool st) := by
  intro s
  unfold flushPool
  rw [foldl_flush_pool classRange classRange_nodup]
  by_cases h : s ∈ classRange
  · simp only [if_pos h, List.length_append]
    have := hinv s
    omega
  · simp only [if_neg h]
    exact hinv s

lemma globalSizeInv_defrag {st : AllocState} (hinv : GlobalSizeInv st) :
    GlobalSizeInv (defrag st) := by
  intro s
  rw [defrag_pool]
  by_cases h : s ∈ classRange ∧ 1 < (st.s_pool s).m_size
  · simp only [if_pos h, sortAddrs_length]
    exact hinv s
  · simp only [if_neg h]
    exact hinv s

lemma globalSizeInv_runOp {st : AllocState} {o : Op} (hv : validOp o)
    (hinv : GlobalSizeInv st) : GlobalSizeInv (runOp st o) := by
  cases o with
  | alloc s => exact globalSizeInv_allocate hinv hv.2 hv.1
  | dealloc s p => exact hinv
  | deallocList s chain => exact hinv

/-! ### Byte accounting -/

lemma unguarded_congr {stA stB : AllocState} (h : stA.s_pool = stB.s_pool) :
    unguardedMemGlobalFreelist stA = unguardedMemGlobalFreelist stB := by
  unfold unguardedMemGlobalFreelist
  rw [h]

lemma memThreadBytes_congr {stA stB : AllocState} (h : stA.s_tp = stB.s_tp) :
    memThreadBytes stA = memThreadBytes stB := by
  unfold memThreadBytes
  rw [h]

/-- Updating one global class changes the global byte sum by the change
at that class (stated additively). -/
lemma unguarded_update (st st' : AllocState) {s : Nat} (hs : s ∈ classRange)
    {pe' : PoolElement} (h : st'.s_pool = Function.update st.s_pool s pe') :
    pe'.m_size * s + unguardedMemGlobalFreelist st
      = (st.s_pool s).m_size * s + unguardedMemGlobalFreelist st' := by
  unfold unguardedMemGlobalFreelist
  rw [h]
  have := sum_map_update_int (fun sz => (st.s_pool sz).m_size * sz)
      (fun sz => ((Function.update st.s_pool s pe') sz).m_size * sz) s
      (fun sz hne => by simp [Function.update_noteq hne]) classRange classRange_nodup hs
  simpa [Function.update_same] using this

/-- Updating one thread-local class changes the thread byte sum by the
change at that class (stated additively). -/
lemma memThreadBytes_update (st st' : AllocState) {s : Nat} (hs : s ∈ classRange)
    {l : List Addr} (h : st'.s_tp = Function.update st.s_tp s l) :
    l.length * s + memThreadBytes st
      = (st.s_tp s).length * s + memThreadBytes st' := by
  unfold memThreadBytes
  rw [h]
  have := sum_map_update_nat (fun sz => (st.s_tp sz).length * sz)
      (fun sz => ((Function.update st.s_tp s l) sz).length * sz) s
      (fun sz hne => by simp [Function.update_noteq hne]) classRange classRange_nodup hs
  simpa [Function.update_same] using this

/-- One call preserves the byte-accounting invariant, shifting the
caller-held balance by `opDelta`.  Requires a word-multiple size: for
other sizes the carved words of a refill exceed the bytes the free-list
sums count. -/
lemma accounting_step {st : AllocState} {o : Op} {d : Int}
    (hv : validOp o) (hw : ptrSize ∣ opSize o)
    (hinv : GlobalSizeInv st) (hacc : Accounting st d) :
    Accounting (runOp st o) (d + opDelta o) := by
  obtain ⟨hpos, hlt⟩ := hv
  cases o with
  | dealloc s p =>
    simp only [opSize] at hpos hlt hw
    have hs : s ∈ classRange := mem_classRange.mpr ⟨hpos, hlt⟩
    have hT := memThreadBytes_update st (deallocate st s p) hs rfl
    have hG : unguardedMemGlobalFreelist st = unguardedMemGlobalFreelist (deallocate st s p) :=
      unguarded_congr rfl
    unfold Accounting at hacc ⊢
    simp only [runOp, opDelta, deallocate] at *
    simp only [List.length_cons, add_mul, one_mul] at hT
    zify at hT
    linarith
  | deallocList s chain =>
    simp only [opSize] at hpos hlt hw
    have hs : s ∈ classRange := mem_classRange.mpr ⟨hpos, hlt⟩
    have hT := memThreadBytes_update st (deallocateList st s chain) hs rfl
    have hG : unguardedMemGlobalFreelist st
        = unguardedMemGlobalFreelist (deallocateList st s chain) :=
      unguarded_congr rfl
    unfold Accounting at hacc ⊢
    simp only [runOp, opDelta, deallocateList] at *
    simp only [List.length_append, add_mul] at hT
    zify at hT
    linarith
  | alloc s =>
    simp only [opSize] at hpos hlt hw
    have hs : s ∈ classRange := mem_classRange.mpr ⟨hpos, hlt⟩
    unfold Accounting at hacc ⊢
    cases htp : st.s_tp s with
    | cons p rest =>
      have hT := memThreadBytes_update st
          { st with s_tp := Function.update st.s_tp s rest } hs rfl
      rw [htp] at hT
      have hG : unguardedMemGlobalFreelist st
          = unguardedMemGlobalFreelist { st with s_tp := Function.update st.s_tp s rest } :=
        unguarded_congr rfl
      simp only [runOp, opDelta]
      rw [allocate_cons htp]
      dsimp only
      simp only [List.length_cons, add_mul, one_mul] at hT
      zify at hT
      linarith
    | nil =>
      simp only [runOp, opDelta, allocate_nil htp]
      by_cases hc : (nSlicesFor s : Int) ≤ (st.s_pool s).m_size
      · -- global-take branch
        have hlen : nSlicesFor s ≤ (st.s_pool s).m_gp.length := by
          have := hinv s
          omega
        obtain ⟨m, hm⟩ : ∃ m, nSlicesFor s = m + 1 :=
          ⟨nSlicesFor s - 1, by have := nSlicesFor_pos hlt hpos; omega⟩
        rw [fillPool_take_char st s hc hlen (nSlicesFor_pos hlt hpos)]
        dsimp only
        set st' := { st with
          s_pool := Function.update st.s_pool s
            ⟨(st.s_pool s).m_gp.drop (nSlicesFor s),
             (st.s_pool s).m_size - nSlicesFor s⟩,
          s_tp := Function.update st.s_tp s
            (((st.s_pool s).m_gp.take (nSlicesFor s)).tail) }
        have hG : ((st.s_pool s).m_size - (nSlicesFor s : Int)) * s
              + unguardedMemGlobalFreelist st
            = (st.s_pool s).m_size * s + unguardedMemGlobalFreelist st' :=
          unguarded_update st st' hs rfl
        have hT := memThreadBytes_update st st' hs rfl
        rw [htp] at hT
        have htake : (((st.s_pool s).m_gp.take (nSlicesFor s)).tail).length = m := by
          rw [List.length_tail, List.length_take]
          omega
        rw [htake] at hT
        simp only [List.length_nil, Nat.zero_mul, Nat.zero_add] at hT
        have hms : ((nSlicesFor s : Int)) * s = (m : Int) * s + s := by
          rw [hm]
          push_cast
          ring
        zify at hT
        linarith [hacc, hG, hT, hms]
      · -- new-block branch
        rw [fillPool_block_char st s hc (nSlicesFor_pos hlt hpos)]
        dsimp only
        set st' := { st with
          s_blocks := freshBlock st :: st.s_blocks,
          s_nettoAlloc := st.s_nettoAlloc + nWordsFor s * nSlicesFor s,
          s_tp := Function.update st.s_tp s
            ((sliceList (freshBlock st) (nWordsFor s) (nSlicesFor s)).tail) }
        obtain ⟨m, hm⟩ : ∃ m, nSlicesFor s = m + 1 :=
          ⟨nSlicesFor s - 1, by have := nSlicesFor_pos hlt hpos; omega⟩
        have hG : unguardedMemGlobalFreelist st = unguardedMemGlobalFreelist st' :=
          unguarded_congr rfl
        have hT := memThreadBytes_update st st' hs rfl
        rw [htp] at hT
        have htail : ((sliceList (freshBlock st) (nWordsFor s) (nSlicesFor s)).tail).length = m := by
          rw [List.length_tail, sliceList_length]
          omega
        rw [htail] at hT
        simp only [List.length_nil, Nat.zero_mul, Nat.zero_add] at hT
        have hws : nWordsFor s * ptrSize = s := nWordsFor_mul_ptrSize hlt hpos hw
        have hcarveN : nWordsFor s * nSlicesFor s * ptrSize = m * s + s := by
          rw [hm]
          have h1 : nWordsFor s * (m + 1) * ptrSize = nWordsFor s * ptrSize * (m + 1) := by
            ring
          rw [h1, hws]
          ring
        have hcarve : ((nWordsFor s * nSlicesFor s : Nat) : Int) * ptrSize
            = (m : Int) * s + s := by
          exact_mod_cast congrArg (Nat.cast : Nat → Int) hcarveN
        zify at hT
        push_cast
        linarith [hacc, hG, hT, hcarve]

lemma accounting_runOps : ∀ (t : List Op) (st : AllocState) (d : Int),
    (∀ o ∈ t, validOp o ∧ ptrSize ∣ opSize o) →
    GlobalSizeInv st → Accounting st d →
    GlobalSizeInv (runOps st t) ∧ Accounting (runOps st t) (d + netDelta t)
  | [], st, d, _, hinv, hacc => by
    constructor
    · exact hinv
    · simpa [runOps, netDelta] using hacc
  | o :: t, st, d, hv, hinv, hacc => by
    have hvo := hv o (List.mem_cons_self o t)
    have step := accounting_step hvo.1 hvo.2 hinv hacc
    have hinv' := globalSizeInv_runOp hvo.1 hinv
    have ih := accounting_runOps t (runOp st o) (d + opDelta o)
        (fun o' ho' => hv o' (List.mem_cons_of_mem o ho')) hinv' step
    constructor
    · exact ih.1
    · have harr : d + netDelta (o :: t) = d + opDelta o + netDelta t := by
        simp only [netDelta, List.map_cons, List.sum_cons]
        ring
      simp only [runOps, List.foldl_cons] at ih ⊢
      rw [harr]
      exact ih.2

set_option maxRecDepth 8000 in
lemma accounting_init : Accounting initState 0 := by
  unfold Accounting
  decide

lemma cleanupAssert_of_accounting {st : AllocState} (h : Accounting st 0) :
    cleanupAssert st := by
  unfold cleanupAssert
  rw [memoryInThreadFreeList_fst]
  unfold Accounting at h
  linarith

lemma sum_map_add_int (L : List Nat) (f g : Nat → Int) :
    (L.map (fun x => f x + g x)).sum = (L.map f).sum + (L.map g).sum := by
  induction L with
  | nil => simp
  | cons a L ih =>
    simp only [List.map_cons, List.sum_cons, ih]
    ring

lemma cast_sum_map (F : Nat → Nat) (L : List Nat) :
    (((L.map F).sum : Nat) : Int) = (L.map (fun x => (F x : Int))).sum := by
  induction L with
  | nil => simp
  | cons a L ih => simp [ih]

/-- `deallocateList` of a chain followed by one `allocate` per chain
element walks the chain front to back and restores the original state. -/
lemma allocN_deallocateList : ∀ (chain : List Addr) (st : AllocState) (s : Nat),
    allocN s chain.length (deallocateList st s chain) = (chain, st)
  | [], st, s => by
    have h : deallocateList st s [] = st := by
      unfold deallocateList
      simp only [List.nil_append]
      rw [Function.update_eq_self]
    simp only [List.length_nil, h]
    rfl
  | a :: rest, st, s => by
    have h : (deallocateList st s (a :: rest)).s_tp s = a :: (rest ++ st.s_tp s) := by
      simp [deallocateList, Function.update_same]
    simp only [List.length_cons, allocN]
    rw [allocate_cons h]
    have hstate : ({ deallocateList st s (a :: rest) with
        s_tp := Function.update (deallocateList st s (a :: rest)).s_tp s
          (rest ++ st.s_tp s) } : AllocState)
        = deallocateList st s rest := by
      simp [deallocateList, Function.update_idem]
    rw [hstate, allocN_deallocateList rest st s]

lemma sliceList_eq_map : ∀ (n p w : Nat),
    sliceList p w n = (List.range n).map (fun i => p + i * w)
  | 0, _, _ => rfl
  | n + 1, p, w => by
    have htail : (List.range n).map ((fun i => p + i * w) ∘ Nat.succ)
        = sliceList (p + w) w n := by
      rw [sliceList_eq_map n]
      apply List.map_congr_left
      intro i _
      simp only [Function.comp_apply, Nat.succ_eq_add_one]
      ring
    rw [List.range_succ_eq_map, List.map_cons, List.map_map, htail]
    simp [sliceList]

/-- The linking loop of `makeSlices`, run with `k + 2` slices: the cursor
ends on the last slice, every slice but the last points to the next, and
no other address is written. -/
lemma makeSlicesLoop_spec : ∀ (k : Nat) (h : Heap) (p w : Nat), 0 < w →
    (makeSlicesLoop h p w (k + 2)).2 = p + (k + 1) * w
    ∧ (∀ i, i < k + 1 →
        (makeSlicesLoop h p w (k + 2)).1 (p + i * w) = some (p + (i + 1) * w))
    ∧ (∀ a, (∀ i, i < k + 1 → a ≠ p + i * w) →
        (makeSlicesLoop h p w (k + 2)).1 a = h a)
  | 0, h, p, w, hw => by
    rw [makeSlicesLoop]
    rw [if_neg (by omega : ¬ 1 < (0 + 2) - 1)]
    refine ⟨?_, ?_, ?_⟩
    · show p + w = p + (0 + 1) * w
      ring
    · intro i hi
      have hi0 : i = 0 := by omega
      subst hi0
      show Function.update h p (some (p + w)) (p + 0 * w) = some (p + (0 + 1) * w)
      rw [show p + 0 * w = p from by ring, show p + (0 + 1) * w = p + w from by ring]
      exact Function.update_same p (some (p + w)) h
    · intro a ha
      have hne : a ≠ p := by
        have h0 := ha 0 (by omega)
        simp only [zero_mul, add_zero] at h0
        exact h0
      exact Function.update_noteq hne _ _
  | k + 1, h, p, w, hw => by
    rw [makeSlicesLoop]
    rw [if_pos (by omega : 1 < (k + 1 + 2) - 1)]
    have hrec : k + 1 + 2 - 1 = k + 2 := by omega
    rw [hrec]
    obtain ⟨ih1, ih2, ih3⟩ :=
      makeSlicesLoop_spec k (Function.update h p (some (p + w))) (p + w) w hw
    refine ⟨?_, ?_, ?_⟩
    · rw [ih1]
      ring
    · intro i hi
      cases i with
      | zero =>
        have hout : ∀ j, j < k + 1 → p ≠ (p + w) + j * w := by
          intro j _
          omega
        rw [show p + 0 * w = p from by ring]
        rw [ih3 p hout]
        rw [show p + (0 + 1) * w = p + w from by ring]
        exact Function.update_same p (some (p + w)) h
      | succ j =>
        have hj : j < k + 1 := by omega
        have haddr : p + (j + 1) * w = (p + w) + j * w := by ring
        have haddr2 : p + (j + 1 + 1) * w = (p + w) + (j + 1) * w := by ring
        rw [haddr, haddr2]
        exact ih2 j hj
    · intro a ha
      have hout : ∀ j, j < k + 1 → a ≠ (p + w) + j * w := by
        intro j hjk
        have hja := ha (j + 1) (by omega)
        intro e
        apply hja
        rw [e]
        ring
      rw [ih3 a hout]
      have hne : a ≠ p := by
        have h0 := ha 0 (by omega)
        simp only [zero_mul, add_zero] at h0
        exact h0
      exact Function.update_noteq hne _ _

/-- `makeSlices` with `k + 2` slices: slice `i` links to slice `i + 1`,
the last slice's link becomes null, and no other address is written. -/
lemma makeSlices_spec (k : Nat) (h : Heap) (p w : Nat) (hw : 0 < w) :
    (∀ i, i < k + 1 →
        makeSlices h p w (k + 2) (p + i * w) = some (p + (i + 1) * w))
    ∧ makeSlices h p w (k + 2) (p + (k + 1) * w) = none
    ∧ (∀ a, (∀ i, i < k + 2 → a ≠ p + i * w) → makeSlices h p w (k + 2) a = h a) := by
  obtain ⟨h1, h2, h3⟩ := makeSlicesLoop_spec k h p w hw
  unfold makeSlices
  rw [h1]
  refine ⟨?_, ?_, ?_⟩
  · intro i hi
    have hne : p + i * w ≠ p + (k + 1) * w := by
      intro e
      have : i * w = (k + 1) * w := by omega
      have : i = k + 1 := Nat.eq_of_mul_eq_mul_right hw this
      omega
    rw [Function.update_noteq hne]
    exact h2 i hi
  · exact Function.update_same _ _ _
  · intro a ha
    have hne : a ≠ p + (k + 1) * w := ha (k + 1) (by omega)
    rw [Function.update_noteq hne]
    exact h3 a (fun i hi => ha i (by omega))

/-! ### The claims -/

set_option linter.unusedVariables false in
/-- C1: for every size class `s` with `0 < s < MaxSize`, when the
thread-local free list for `s` is empty, `fillPool` computes the slice
count for the rounded-up size and then: if the global pool's count for
`s` is at least `nSlices`, it detaches exactly that many elements from
the front of the global free list, decrements the global count by that
amount and makes them the thread's new local list; otherwise it registers
exactly one new block in the block chain and slices it into the local
list; in either case it pops one element off the resulting local list
and returns it.  (The `hempty` premise is the claim's trigger condition;
the refill's effect does not otherwise depend on it.) -/
theorem C1_fillPool_refill (st : AllocState) (s : Nat)
    (h1 : 0 < s) (h2 : s < eTableSize)
    (hempty : st.s_tp s = []) (hinv : GlobalSizeInv st) :
    (((nSlicesFor s : Int) ≤ (st.s_pool s).m_size →
        (fillPool st s).1 :: (fillPool st s).2.s_tp s
            = (st.s_pool s).m_gp.take (nSlicesFor s)
        ∧ ((st.s_pool s).m_gp.take (nSlicesFor s)).length = nSlicesFor s
        ∧ (fillPool st s).2.s_pool s
            = ⟨(st.s_pool s).m_gp.drop (nSlicesFor s),
               (st.s_pool s).m_size - nSlicesFor s⟩
        ∧ (fillPool st s).2.s_blocks = st.s_blocks
        ∧ (fillPool st s).2.s_nettoAlloc = st.s_nettoAlloc)
    ∧ (¬ (nSlicesFor s : Int) ≤ (st.s_pool s).m_size →
        (fillPool st s).2.s_blocks = freshBlock st :: st.s_blocks
        ∧ (fillPool st s).1 :: (fillPool st s).2.s_tp s
            = sliceList (freshBlock st) (nWordsFor s) (nSlicesFor s)
        ∧ (fillPool st s).2.s_pool = st.s_pool
        ∧ (fillPool st s).2.s_nettoAlloc
            = st.s_nettoAlloc + nWordsFor s * nSlicesFor s))
    ∧ ∀ s', s' ≠ s → (fillPool st s).2.s_tp s' = st.s_tp s' := by
  have hpos : 0 < nSlicesFor s := nSlicesFor_pos h2 h1
  refine ⟨⟨?_, ?_⟩, ?_⟩
  · intro hc
    have hlen : nSlicesFor s ≤ (st.s_pool s).m_gp.length := by
      have := hinv s
      omega
    rw [fillPool_take_char st s hc hlen hpos]
    obtain ⟨a, g', hgp⟩ : ∃ a g', (st.s_pool s).m_gp = a :: g' := by
      cases hgp : (st.s_pool s).m_gp with
      | nil => rw [hgp] at hlen; simp at hlen; omega
      | cons a g' => exact ⟨a, g', rfl⟩
    obtain ⟨m, hm⟩ : ∃ m, nSlicesFor s = m + 1 := ⟨nSlicesFor s - 1, by omega⟩
    refine ⟨?_, ?_, ?_, rfl, rfl⟩
    · simp [hgp, hm, Function.update_same]
    · rw [List.length_take]
      omega
    · simp [Function.update_same]
  · intro hc
    rw [fillPool_block_char st s hc hpos]
    obtain ⟨m, hm⟩ : ∃ m, nSlicesFor s = m + 1 := ⟨nSlicesFor s - 1, by omega⟩
    refine ⟨rfl, ?_, rfl, rfl⟩
    simp [hm, sliceList, Function.update_same]
  · intro s' hs'
    by_cases hc : (nSlicesFor s : Int) ≤ (st.s_pool s).m_size
    · have hlen : nSlicesFor s ≤ (st.s_pool s).m_gp.length := by
        have := hinv s
        omega
      rw [fillPool_take_char st s hc hlen hpos]
      exact Function.update_noteq hs' _ _
    · rw [fillPool_block_char st s hc hpos]
      exact Function.update_noteq hs' _ _

/-- C1 witness: on the initial state (empty global pool) a refill for
size 8 takes the new-block path: it pushes one fresh block onto the
chain, counts its carved words, and leaves other classes' local lists
untouched. -/
theorem C1_fillPool_refill_witness :
    (fillPool initState 8).2.s_blocks = freshBlock initState :: initState.s_blocks
    ∧ (fillPool initState 8).2.s_nettoAlloc
        = initState.s_nettoAlloc + nWordsFor 8 * nSlicesFor 8
    ∧ (fillPool initState 8).2.s_tp 9 = initState.s_tp 9 := by
  have h := C1_fillPool_refill initState 8 (by decide) (by decide) rfl globalSizeInv_init
  have hb := h.1.2 (by decide)
  exact ⟨hb.1, hb.2.2.2, h.2 9 (by decide)⟩

set_option maxRecDepth 8000 in
/-- C2 counterexample: `allocate(1)` followed by `deallocate(1, p)` of
the very address it returned is a fully matched sequence, yet the
cleanup assertion fails: the refill carved `1023` words (8184 bytes) but
the free lists count the 1023 elements of class 1 at 1 byte each. -/
theorem C2_counterexample :
    (allocate initState 1).1 = 0
    ∧ netDelta [Op.alloc 1, Op.dealloc 1 0] = 0
    ∧ ¬ cleanupAssert (runOps initState [Op.alloc 1, Op.dealloc 1 0]) := by
  refine ⟨by decide, by decide, by decide⟩

/-- C2 (amended): after any sequence of `allocate`/`deallocate`/
`deallocateList` calls with valid, *word-multiple* sizes in which every
allocation has been matched by a deallocation (caller-held bytes net to
zero), the global free-list bytes plus the thread free-list bytes equal
the carved words times the pointer size, so the assertion in `cleanup()`
does not fire. -/
theorem C2_leak_invariant (t : List Op)
    (hv : ∀ o ∈ t, validOp o ∧ ptrSize ∣ opSize o)
    (hbal : netDelta t = 0) :
    cleanupAssert (runOps initState t) := by
  have h := accounting_runOps t initState 0 hv globalSizeInv_init accounting_init
  apply cleanupAssert_of_accounting
  have h2 := h.2
  rw [hbal] at h2
  simpa using h2

/-- C2 witness: the matched word-multiple trace `allocate(8)`,
`deallocate(8, 0)` satisfies the cleanup assertion. -/
theorem C2_leak_invariant_witness :
    cleanupAssert (runOps initState [Op.alloc 8, Op.dealloc 8 0]) :=
  C2_leak_invariant [Op.alloc 8, Op.dealloc 8 0] (by decide) (by decide)

set_option maxRecDepth 8000 in
/-- C3: `memoryInThreadFreeList` computes the right byte total but, by
iterating through a *reference* to each table entry
(`MemElemPtr &p = s_tp[sz]`), it drags every non-empty head pointer down
its chain to null: on a state whose class-8 list holds the single
element 5 it returns 8 yet wipes `s_tp[8]`. -/
theorem C3_memoryInThreadFreeList_mutates :
    (memoryInThreadFreeList (deallocate initState 8 5)).1 = 8
    ∧ (deallocate initState 8 5).s_tp 8 = [5]
    ∧ (memoryInThreadFreeList (deallocate initState 8 5)).2.s_tp 8 = [] := by
  refine ⟨by decide, by decide, by decide⟩

/-- C4: after `flushPool()` every thread-local head (class 1 to
`MaxSize - 1`) is empty, each class's former local list is spliced in
its original order onto the front of that class's global list with the
global count increased by exactly its length, and the global byte total
grows by exactly the bytes that were in the local lists. -/
theorem C4_flushPool (st : AllocState) (s : Nat)
    (h1 : 1 ≤ s) (h2 : s < eTableSize) :
    (flushPool st).s_tp s = []
    ∧ (flushPool st).s_pool s
        = ⟨st.s_tp s ++ (st.s_pool s).m_gp,
           (st.s_pool s).m_size + (st.s_tp s).length⟩
    ∧ unguardedMemGlobalFreelist (flushPool st)
        = unguardedMemGlobalFreelist st + memThreadBytes st := by
  have hs : s ∈ classRange := mem_classRange.mpr ⟨h1, h2⟩
  refine ⟨?_, ?_, ?_⟩
  · unfold flushPool
    rw [foldl_flush_tp]
    simp [hs]
  · unfold flushPool
    rw [foldl_flush_pool classRange classRange_nodup]
    simp [hs]
  · unfold unguardedMemGlobalFreelist
    have hcg : ∀ sz ∈ classRange,
        ((flushPool st).s_pool sz).m_size * (sz : Int)
          = ((st.s_pool sz).m_size * sz + ((st.s_tp sz).length : Int) * sz) := by
      intro sz hsz
      unfold flushPool
      rw [foldl_flush_pool classRange classRange_nodup]
      simp only [if_pos hsz]
      ring
    rw [sum_map_congr hcg, sum_map_add_int]
    unfold memThreadBytes
    rw [cast_sum_map]
    congr 1

/-- C4 witness: flushing a state whose class-8 local list is `[5]`
empties that head and moves its 8 bytes to the global total. -/
theorem C4_flushPool_witness :
    (flushPool (deallocate initState 8 5)).s_tp 8 = []
    ∧ unguardedMemGlobalFreelist (flushPool (deallocate initState 8 5))
        = unguardedMemGlobalFreelist (deallocate initState 8 5)
          + memThreadBytes (deallocate initState 8 5) :=
  ⟨(C4_flushPool (deallocate initState 8 5) 8 (by decide) (by decide)).1,
   (C4_flushPool (deallocate initState 8 5) 8 (by decide) (by decide)).2.2⟩

/-- C5: on states satisfying the count/length invariant, `defrag`
permutes each global free list (no element added, lost or duplicated),
keeps each per-class count, relinks in strictly ascending address order
(given the free lists hold no duplicate address), and leaves classes
whose list has at most one element untouched. -/
theorem C5_defrag (st : AllocState) (hinv : GlobalSizeInv st) (s : Nat)
    (h1 : 1 ≤ s) (h2 : s < eTableSize) :
    List.Perm ((defrag st).s_pool s).m_gp (st.s_pool s).m_gp
    ∧ ((defrag st).s_pool s).m_size = (st.s_pool s).m_size
    ∧ ((st.s_pool s).m_gp.Nodup → ((defrag st).s_pool s).m_gp.Sorted (· < ·))
    ∧ ((st.s_pool s).m_gp.length ≤ 1 → (defrag st).s_pool s = st.s_pool s) := by
  have hs : s ∈ classRange := mem_classRange.mpr ⟨h1, h2⟩
  rw [defrag_pool]
  by_cases hc : s ∈ classRange ∧ 1 < (st.s_pool s).m_size
  · rw [if_pos hc]
    refine ⟨sortAddrs_perm _, rfl, ?_, ?_⟩
    · intro hnd
      have hsorted : (sortAddrs (st.s_pool s).m_gp).Sorted (· ≤ ·) :=
        sortAddrs_sorted _
      have hnd' : (sortAddrs (st.s_pool s).m_gp).Nodup :=
        ((sortAddrs_perm _).nodup_iff).mpr hnd
      exact hsorted.lt_of_le hnd'
    · intro hle
      have := hinv s
      omega
  · rw [if_neg hc]
    refine ⟨List.Perm.refl _, rfl, ?_, fun _ => rfl⟩
    intro hnd
    have hsz : ¬ 1 < (st.s_pool s).m_size := fun h => hc ⟨hs, h⟩
    have hlen : (st.s_pool s).m_gp.length ≤ 1 := by
      have := hinv s
      omega
    cases hgp : (st.s_pool s).m_gp with
    | nil => simp
    | cons a l =>
      rw [hgp] at hlen
      simp only [List.length_cons] at hlen
      have hl : l = [] := List.length_eq_zero.mp (by omega)
      subst hl
      simp

/-- C5 witness: a two-element class-8 global list `[7, 3]` (count 2)
is relinked as a permutation of itself with its count unchanged. -/
theorem C5_defrag_witness :
    List.Perm
      ((defrag (AllocState.mk
          (Function.update (fun _ => ⟨[], 0⟩) 8 ⟨[7, 3], 2⟩)
          (fun _ => []) [] 0)).s_pool 8).m_gp
      [7, 3]
    ∧ ((defrag (AllocState.mk
          (Function.update (fun _ => ⟨[], 0⟩) 8 ⟨[7, 3], 2⟩)
          (fun _ => []) [] 0)).s_pool 8).m_size = 2 := by
  have hinv : GlobalSizeInv (AllocState.mk
      (Function.update (fun _ => ⟨[], 0⟩) 8 ⟨[7, 3], 2⟩)
      (fun _ => []) [] 0) := by
    intro s
    by_cases h : s = 8
    · subst h
      simp [Function.update_same]
    · simp [Function.update_noteq h]
  have h := C5_defrag _ hinv 8 (by decide) (by decide)
  constructor
  · have := h.1
    simpa [Function.update_same] using this
  · have := h.2.1
    simpa [Function.update_same] using this

set_option maxRecDepth 8000 in
/-- C6 counterexample: on the initial state (class-8 local list empty)
`deallocate(8, allocate(8))` does *not* restore the local list to its
prior state: the intervening refill leaves the freshly sliced block
minus nothing — the list goes from `[]` to the 1023-element chain. -/
theorem C6_counterexample :
    (deallocate (allocate initState 8).2 8 (allocate initState 8).1).s_tp 8
      ≠ initState.s_tp 8 := by
  decide

set_option linter.unusedVariables false in
/-- C6 (amended): `deallocate(s, allocate(s))` followed by `allocate(s)`
always returns the same address; the round trip restores the
thread-local free list for `s` to its prior state whenever that list was
non-empty beforehand (when it was empty, the refill leaves the sliced
block behind, so only the LIFO-address part survives). -/
theorem C6_round_trip (st : AllocState) (s : Nat)
    (h1 : 0 < s) (h2 : s < eTableSize) :
    (allocate (deallocate (allocate st s).2 s (allocate st s).1) s).1
        = (allocate st s).1
    ∧ (st.s_tp s ≠ [] → deallocate (allocate st s).2 s (allocate st s).1 = st) := by
  constructor
  · have hd : (deallocate (allocate st s).2 s (allocate st s).1).s_tp s
        = (allocate st s).1 :: ((allocate st s).2.s_tp s) := by
      simp [deallocate, Function.update_same]
    rw [allocate_cons hd]
  · intro hne
    obtain ⟨p, rest, htp⟩ : ∃ p rest, st.s_tp s = p :: rest := by
      cases h : st.s_tp s with
      | nil => exact absurd h hne
      | cons p rest => exact ⟨p, rest, rfl⟩
    rw [allocate_cons htp]
    unfold deallocate
    rcases st with ⟨pool, tp, blocks, netto⟩
    simp only [Function.update_same, Function.update_idem] at *
    congr 1
    rw [← htp]
    exact Function.update_eq_self s tp

/-- C6 witness: with the class-8 local list `[5]`, the round trip
returns 5 and restores the state exactly. -/
theorem C6_round_trip_witness :
    (allocate (deallocate (allocate (deallocate initState 8 5) 8).2 8
        (allocate (deallocate initState 8 5) 8).1) 8).1
      = (allocate (deallocate initState 8 5) 8).1
    ∧ deallocate (allocate (deallocate initState 8 5) 8).2 8
        (allocate (deallocate initState 8 5) 8).1 = deallocate initState 8 5 :=
  ⟨(C6_round_trip (deallocate initState 8 5) 8 (by decide) (by decide)).1,
   (C6_round_trip (deallocate initState 8 5) 8 (by decide) (by decide)).2
     (by simp [deallocate, Function.update_same])⟩

set_option linter.unusedVariables false in
/-- C7: for every valid size `s` and properly linked chain of `k`
same-size elements (given as its address list, head first),
`deallocateList(s, head, tail)` followed by `k` sequential `allocate(s)`
calls returns exactly the chain's addresses in chain order and restores
the state; if the chain has no duplicate address, neither does the
returned list. -/
theorem C7_deallocateList_roundtrip (st : AllocState) (s : Nat) (chain : List Addr)
    (h1 : 0 < s) (h2 : s < eTableSize) :
    allocN s chain.length (deallocateList st s chain) = (chain, st)
    ∧ (chain.Nodup →
        (allocN s chain.length (deallocateList st s chain)).1.Nodup) := by
  refine ⟨allocN_deallocateList chain st s, ?_⟩
  intro hnd
  rw [allocN_deallocateList chain st s]
  exact hnd

/-- C7 witness: returning the chain `[4, 9]` to class 8 and allocating
twice yields `4` then `9` and restores the initial state. -/
theorem C7_deallocateList_roundtrip_witness :
    allocN 8 [4, 9].length (deallocateList initState 8 [4, 9]) = ([4, 9], initState) :=
  (C7_deallocateList_roundtrip initState 8 [4, 9] (by decide) (by decide)).1

/-- C8: the invariant "stored global count = global free-list length"
holds initially and is preserved by every operation: `deallocate`,
`deallocateList` and `allocate` (which never touch the global table or
change it consistently), `fillPool` (count decremented by exactly the
number of detached elements), `flushPool` (count incremented by exactly
the number of spliced elements), and `defrag` (count unchanged, and its
internal `OGDF_ASSERT(i == n)` holds). -/
theorem C8_global_count_invariant :
    GlobalSizeInv initState
    ∧ (∀ st s p, GlobalSizeInv st → GlobalSizeInv (deallocate st s p))
    ∧ (∀ st s chain, GlobalSizeInv st → GlobalSizeInv (deallocateList st s chain))
    ∧ (∀ st s, GlobalSizeInv st → 0 < s → s < eTableSize →
        GlobalSizeInv (allocate st s).2)
    ∧ (∀ st s, GlobalSizeInv st → 0 < s → s < eTableSize →
        (nSlicesFor s : Int) ≤ (st.s_pool s).m_size →
        GlobalSizeInv (fillPool st s).2
        ∧ ((fillPool st s).2.s_pool s).m_size
            = (st.s_pool s).m_size - nSlicesFor s
        ∧ ((fillPool st s).2.s_pool s).m_gp.length + nSlicesFor s
            = (st.s_pool s).m_gp.length)
    ∧ (∀ st, GlobalSizeInv st →
        GlobalSizeInv (flushPool st)
        ∧ ∀ s, 1 ≤ s → s < eTableSize →
            ((flushPool st).s_pool s).m_size
              = (st.s_pool s).m_size + (st.s_tp s).length)
    ∧ (∀ st, GlobalSizeInv st → GlobalSizeInv (defrag st) ∧ defragAssertOk st) := by
  refine ⟨globalSizeInv_init, ?_, ?_, ?_, ?_, ?_, ?_⟩
  · intro st s p h
    exact globalSizeInv_deallocate h s p
  · intro st s chain h
    exact globalSizeInv_deallocateList h s chain
  · intro st s h h1 h2
    exact globalSizeInv_allocate h h2 h1
  · intro st s hinv h1 h2 hc
    have hpos : 0 < nSlicesFor s := nSlicesFor_pos h2 h1
    have hlen : nSlicesFor s ≤ (st.s_pool s).m_gp.length := by
      have := hinv s
      omega
    refine ⟨globalSizeInv_fillPool hinv h2 h1, ?_, ?_⟩
    · rw [fillPool_take_char st s hc hlen hpos]
      simp [Function.update_same]
    · rw [fillPool_take_char st s hc hlen hpos]
      simp only [Function.update_same, List.length_drop]
      omega
  · intro st hinv
    refine ⟨globalSizeInv_flushPool hinv, ?_⟩
    intro s h1 h2
    have hs : s ∈ classRange := mem_classRange.mpr ⟨h1, h2⟩
    unfold flushPool
    rw [foldl_flush_pool classRange classRange_nodup]
    simp [hs]
  · intro st hinv
    refine ⟨globalSizeInv_defrag hinv, ?_⟩
    intro s _
    exact (hinv s).symm ▸ (hinv s)

/-- C8 witness: the invariant holds at the initial state, survives a
concrete deallocation, and `defrag`'s assertion holds there. -/
theorem C8_global_count_invariant_witness :
    GlobalSizeInv (deallocate initState 8 5)
    ∧ GlobalSizeInv (defrag initState)
    ∧ defragAssertOk initState :=
  ⟨C8_global_count_invariant.2.1 initState 8 5 globalSizeInv_init,
   (C8_global_count_invariant.2.2.2.2.2.2 initState globalSizeInv_init).1,
   (C8_global_count_invariant.2.2.2.2.2.2 initState globalSizeInv_init).2⟩

/-- C9: for every valid size, `makeSlices` run with the refill's
computed `nSlices` and `nWords` on a block at `pBlock` links slice `i`
(at `pBlock + i * nWords` words) to slice `i + 1` for `i < nSlices - 1`,
nulls the last slice's link, writes no other address, and the slice
addresses are strictly ascending. -/
theorem C9_makeSlices (s : Nat) (h1 : 0 < s) (h2 : s < eTableSize)
    (h : Heap) (pBlock : Nat) :
    (∀ i, i + 1 < nSlicesFor s →
        makeSlices h pBlock (nWordsFor s) (nSlicesFor s) (pBlock + i * nWordsFor s)
          = some (pBlock + (i + 1) * nWordsFor s))
    ∧ makeSlices h pBlock (nWordsFor s) (nSlicesFor s)
        (pBlock + (nSlicesFor s - 1) * nWordsFor s) = none
    ∧ (∀ a, (∀ i, i < nSlicesFor s → a ≠ pBlock + i * nWordsFor s) →
        makeSlices h pBlock (nWordsFor s) (nSlicesFor s) a = h a)
    ∧ (∀ i j, i < j → j < nSlicesFor s →
        pBlock + i * nWordsFor s < pBlock + j * nWordsFor s) := by
  have hw : 0 < nWordsFor s := nWordsFor_pos h2 h1
  have hn : 2 ≤ nSlicesFor s := nSlicesFor_ge_two h2 h1
  obtain ⟨k, hk⟩ : ∃ k, nSlicesFor s = k + 2 := ⟨nSlicesFor s - 2, by omega⟩
  obtain ⟨hlink, hlast, hframe⟩ := makeSlices_spec k h pBlock (nWordsFor s) hw
  rw [hk]
  refine ⟨?_, ?_, ?_, ?_⟩
  · intro i hi
    exact hlink i (by omega)
  · have : k + 2 - 1 = k + 1 := by omega
    rw [this]
    exact hlast
  · intro a ha
    exact hframe a ha
  · intro i j hij hj
    have : i * nWordsFor s < j * nWordsFor s :=
      Nat.mul_lt_mul_of_lt_of_le hij (le_refl _) hw
    omega

/-- C9 witness: with size 8, an all-null heap and a block at 0, slice 0
links to slice 1. -/
theorem C9_makeSlices_witness :
    makeSlices (fun _ => none) 0 (nWordsFor 8) (nSlicesFor 8) (0 + 0 * nWordsFor 8)
      = some (0 + (0 + 1) * nWordsFor 8) :=
  (C9_makeSlices 8 (by decide) (by decide) (fun _ => none) 0).1 0 (by decide)

set_option maxRecDepth 8000 in
/-- C10: in the debug build, `cleanup()` walks and releases exactly the
blocks on the chain and leaves the chain anchor and the global table
with their pre-cleanup values — but its diagnostic pass (through the
mutating `memoryInThreadFreeList`) wipes every thread-local head, so the
claim that all thread-local heads retain their values is false: from
`s_tp[8] = [5]` cleanup leaves `s_tp[8]` null. -/
theorem C10_cleanup_state :
    (cleanup (AllocState.mk (fun _ => ⟨[], 0⟩)
        (Function.update (fun _ => []) 8 [5]) [3] 7)).1 = [3]
    ∧ (cleanup (AllocState.mk (fun _ => ⟨[], 0⟩)
        (Function.update (fun _ => []) 8 [5]) [3] 7)).2.s_blocks = [3]
    ∧ (cleanup (AllocState.mk (fun _ => ⟨[], 0⟩)
        (Function.update (fun _ => []) 8 [5]) [3] 7)).2.s_pool 8 = ⟨[], 0⟩
    ∧ (AllocState.mk (fun _ => ⟨[], 0⟩)
        (Function.update (fun _ => []) 8 [5]) [3] 7).s_tp 8 = [5]
    ∧ (cleanup (AllocState.mk (fun _ => ⟨[], 0⟩)
        (Function.update (fun _ => []) 8 [5]) [3] 7)).2.s_tp 8 = [] := by
  refine ⟨by decide, by decide, by decide, by decide, by decide⟩

end PoolAlloc
